import Mathlib

/-!
Verification of the NewsNeuron hybrid retrieval and citation-grounding core.

This file gives a shallow embedding of the Python backend
(`app/services/citation_processor.py`, `app/services/hybrid_retriever.py`,
`app/services/enhanced_rag_prompt.py`, `app/database/neo4j_client.py`,
`app/services/langgraph_agent.py`, `app/services/rag_enhanced_agent.py`)
and proves or refutes the specification claims about it.

Modelling conventions:
* Python strings are `List Char` (`Str`); slicing `s[a:b]` is `take`/`drop`.
* Python dicts with a fixed field set become structures with `Option` fields;
  `d.get(k, default)` becomes `field.getD default`; Python truthiness of a
  value (`if x:`) is modelled as "not `none` and not empty/zero".
* The article-title lookup dict preserves Python dict semantics
  (insertion-ordered association list; assigning an existing key overwrites
  in place).
* External collaborators (Supabase lookups, vector search, Neo4j sessions)
  are parameters: lookup functions, or `Except`-valued runners whose
  `Except.error` models a raised exception.
* `uuid.uuid4` only produces fresh citation-id strings; it is modelled by a
  deterministic counter threaded through the processor.
* `str.lower` is modelled with `Char.toLower` (the texts involved are ASCII).
-/

set_option autoImplicit false

abbrev Str := List Char

/-- Whitespace characters of Python's regex `\s` and `str.strip` (ASCII range). -/
def pyWs (c : Char) : Bool :=
  c = ' ' || c = '\t' || c = '\n' || c = '\r' || c = '\x0b' || c = '\x0c'

/-- Python `str.lower`. -/
def lowerStr (s : Str) : Str := s.map Char.toLower

/-- Does `hay` start with `needle`? (helper for Python's substring test). -/
def listStarts (hay needle : Str) : Bool :=
  match needle, hay with
  | [], _ => true
  | _ :: _, [] => false
  | n :: ns, h :: hs => n = h && listStarts hs ns

/-- Python's `needle in hay` substring containment on strings. -/
def isSubstr (needle hay : Str) : Bool :=
  match hay with
  | [] => listStarts [] needle
  | _ :: hs => listStarts hay needle || isSubstr needle hs

/-- Index of the first occurrence of `needle` in `hay` (Python `str.find`,
returning `none` instead of `-1`). Used to state "order of first appearance". -/
def substrPos (needle hay : Str) : Option Nat :=
  match hay with
  | [] => if listStarts [] needle then some 0 else none
  | _ :: hs =>
    if listStarts hay needle then some 0
    else (substrPos needle hs).map (· + 1)

/-- Python `s.split(',')` (note `"".split(',') = [""]`). -/
def splitComma (s : Str) : List Str := s.splitOn ','

/-- Python `s.split('.')`, the sentence approximation of `validate_rag_response`. -/
def split_on_dot (s : Str) : List Str := s.splitOn '.'

/-- Python `str.strip()`. -/
def stripStr (s : Str) : Str :=
  ((s.dropWhile pyWs).reverse.dropWhile pyWs).reverse

/-- Python `",".join(parts)`. -/
def joinComma : List Str → Str
  | [] => []
  | [x] => x
  | x :: xs => x ++ ',' :: joinComma xs

/-! ### The citation-marker pattern

`citation_processor.py` and `enhanced_rag_prompt.py` both scan with the regex
`\[Sources?:\s*([^\]]+)\]` (case-sensitive, no flags).  We embed that exact
pattern: a literal `[`, the literal `Source`, an optional `s`, a `:`, then
(greedy `\s*` followed by greedy `[^\]]+`, which after backtracking means: the
run `w` of non-`]` characters up to the next `]` must be non-empty, and the
captured group is `w` without its leading whitespace — except that when `w` is
all whitespace the group is just the last character of `w`), then `]`. -/

/-- After the literal `[Source`, consume the optional `s` and the `:`.
Returns the number of characters consumed and the remainder. -/
def matchTail (r : Str) : Option (Nat × Str) :=
  match r with
  | 's' :: ':' :: rest => some (2, rest)
  | ':' :: rest => some (1, rest)
  | _ => none

/-- The captured group `\s*([^\]]+)` inside the non-`]` run `w`:
`w` minus its maximal whitespace beginning, except that an all-whitespace `w`
captures exactly its last character (regex backtracking). -/
def groupOf (w : Str) : Str :=
  let p := w.takeWhile pyWs
  if p.length = w.length then w.drop (w.length - 1) else w.drop p.length

/-- Attempt to match the citation pattern at the head of `l`; on success
returns (match length - 1, captured group). -/
def matchAtCore (l : Str) : Option (Nat × Str) :=
  match l with
  | [] => none
  | c :: r1 =>
    if c = '[' ∧ r1.take 6 = "Source".toList then
      match matchTail (r1.drop 6) with
      | some (k, r2) =>
        if 0 < (r2.takeWhile (fun ch => ch ≠ ']')).length ∧
            (r2.takeWhile (fun ch => ch ≠ ']')).length < r2.length then
          some (7 + k + (r2.takeWhile (fun ch => ch ≠ ']')).length,
            groupOf (r2.takeWhile (fun ch => ch ≠ ']')))
        else none
      | none => none
    else none

/-- Scan as `re.finditer`: leftmost, non-overlapping matches; produces
`(start, end, group)` triples with positions relative to `pos`.  A match at
the current position has length `lenm1 + 1` (see `matchAtCore`), so the scan
resumes after its end; otherwise the scan advances one character.  The
`fuel` argument only makes the recursion structural: every step consumes at
least one character, so any `fuel ≥ l.length` gives the same result
(`findMatchesAux_congr`). -/
def findMatchesAux : Nat → Str → Nat → List (Nat × Nat × Str)
  | 0, _, _ => []
  | _ + 1, [], _ => []
  | fuel + 1, c :: rest, pos =>
    match matchAtCore (c :: rest) with
    | some (lenm1, grp) =>
      (pos, pos + (lenm1 + 1), grp) ::
        findMatchesAux fuel (rest.drop lenm1) (pos + (lenm1 + 1))
    | none => findMatchesAux fuel rest (pos + 1)

/-- All citation-marker matches of a response text:
`list(re.finditer(r'\[Sources?:\s*([^\]]+)\]', text))` as
`(start, end, group)` triples. -/
def findMatches (text : Str) : List (Nat × Nat × Str) :=
  findMatchesAux text.length text 0

/-- Ascending well-formed spans: every `(s, e, _)` satisfies
`lo ≤ s < e ≤ hi` and consecutive spans do not overlap. -/
def Spans : Nat → Nat → List (Nat × Nat × Str) → Prop
  | _, _, [] => True
  | lo, hi, (s, e, _) :: rest => lo ≤ s ∧ s < e ∧ e ≤ hi ∧ Spans e hi rest

/-- Descending well-formed spans (the processing order of the citation
processor): every `(s, e, _)` satisfies `s < e ≤ hi` and each later span
lies entirely before the current one. -/
def DSpans : Nat → List (Nat × Nat × Str) → Prop
  | _, [] => True
  | hi, (s, e, _) :: rest => s < e ∧ e ≤ hi ∧ DSpans s rest

/-- Rebuild a text from ascending spans, replacing each span `[s, e)` with
the corresponding replacement string and copying the original text verbatim
everywhere else.  `pos` is the cursor into the original text. -/
def assembleAsc (text : Str) : Nat → List (Nat × Nat × Str) → List Str → Str
  | pos, [], _ => text.drop pos
  | pos, _ :: _, [] => text.drop pos
  | pos, (s, e, _) :: rest, r :: rs =>
    (text.drop pos).take (s - pos) ++ r ++ assembleAsc text e rest rs

/-- Rebuild a text from descending spans: splice the replacement over the
first (rightmost) span and recurse on the untouched beginning of the text. -/
def assembleDesc : Str → List (Nat × Nat × Str) → List Str → Str
  | text, [], _ => text
  | text, _ :: _, [] => text
  | text, (s, e, _) :: rest, r :: rs =>
    assembleDesc (text.take s) rest rs ++ r ++ text.drop e

/-! ### Data model (`app/schemas.py` dict shapes) -/

/-- An article record as passed around the retrieval pipeline (a Python
dict; absent keys are `none`).  `from_graph` is the tag set by
`hybrid_search` on graph-discovered articles (absent = `false`). -/
structure Article where
  id : Option Int := none
  title : Option Str := none
  url : Option Str := none
  source : Option Str := none
  published_date : Option Str := none
  content : Option Str := none
  snippet : Option Str := none
  similarity_score : Option Rat := none
  from_graph : Bool := false
deriving DecidableEq

/-- `CitationInfo` of `app/schemas.py`; `pos_start`/`pos_end` are the
`position_in_text` start/end offsets. -/
structure CitationInfo where
  id : Str
  source_name : Str
  title : Str
  url : Option Str
  publication : Str
  published_date : Option Str
  snippet : Option Str
  similarity_score : Option Rat
  pos_start : Nat
  pos_end : Nat
  verification_url : Option Str
deriving DecidableEq

/-! ### CitationProcessor (`app/services/citation_processor.py`) -/

/-- The article-title lookup dict: an insertion-ordered association list with
Python dict update semantics (existing key keeps its position). -/
abbrev AMap := List (Str × Article)

/-- Python `d[k] = v`. -/
def insertKey (m : AMap) (k : Str) (v : Article) : AMap :=
  if m.any (fun p => p.1 == k) then
    m.map (fun p => if p.1 == k then (p.1, v) else p)
  else m ++ [(k, v)]

/-- Python `d[k]` / `k in d` membership lookup. -/
def lookupKey (m : AMap) (k : Str) : Option Article :=
  (m.find? (fun p => p.1 == k)).map (·.2)

/-- One article's insertions into the title map: the title, the lowercased
title, and (for titles longer than 30) a shortened `title[:30] + "..."`
variant. -/
def articleMapStep (m : AMap) (article : Article) : AMap :=
  if 30 < (article.title.getD []).length then
    insertKey
      (insertKey (insertKey m (article.title.getD []) article)
        (lowerStr (article.title.getD [])) article)
      ((article.title.getD []).take 30 ++ "...".toList) article
  else
    insertKey (insertKey m (article.title.getD []) article)
      (lowerStr (article.title.getD [])) article

/-- `CitationProcessor._create_article_map`. -/
def create_article_map (articles : List Article) : AMap :=
  articles.foldl articleMapStep []

/-- `CitationProcessor._find_matching_article`: exact key, then lowercased
key, then first entry whose key contains, or is contained in, the source
name (case-insensitively). -/
def find_matching_article (source_name : Str) (m : AMap) : Option Article :=
  match lookupKey m source_name with
  | some a => some a
  | none =>
    match lookupKey m (lowerStr source_name) with
    | some a => some a
    | none =>
      (m.find? (fun p =>
        isSubstr (lowerStr source_name) (lowerStr p.1) ||
        isSubstr (lowerStr p.1) (lowerStr source_name))).map (·.2)

/-- The fresh citation identifier `f"cite_{uuid.uuid4().hex[:8]}"`, with the
uuid modelled by a deterministic counter. -/
def freshCid (n : Nat) : Str := "cite_".toList ++ Nat.toDigits 10 n

/-- Decimal rendering of a Python int. -/
def intDigits (n : Int) : Str :=
  if n < 0 then '-' :: Nat.toDigits 10 n.natAbs else Nat.toDigits 10 n.natAbs

/-- `CitationProcessor._generate_verification_url`. -/
def generate_verification_url (a : Article) : Option Str :=
  match a.id with
  | some n => if n = 0 then none
      else some ("/api/v1/articles/".toList ++ intDigits n ++ "/verify".toList)
  | none => none

/-- Build one `CitationInfo` record as in `process_response_citations`. -/
def mkCitationInfo (ctr : Nat) (source_name : Str) (a : Article) (s e : Nat) :
    CitationInfo :=
  { id := freshCid ctr
    source_name := source_name
    title := a.title.getD source_name
    url := a.url
    publication := a.source.getD "Unknown".toList
    published_date := a.published_date
    snippet :=
      match a.content with
      | some c => if c = [] then none else some (c.take 200 ++ "...".toList)
      | none => none
    similarity_score := a.similarity_score
    pos_start := s
    pos_end := e
    verification_url := generate_verification_url a }

/-- Resolve the names of one citation marker (in order), creating a
`CitationInfo` for each name that matches an article; unresolvable names
are dropped.  Returns the created records and the next counter value. -/
def citationsForMatch (amap : AMap) : List Str → Nat → Nat → Nat →
    List CitationInfo × Nat
  | [], _, _, ctr => ([], ctr)
  | name :: rest, s, e, ctr =>
    match find_matching_article name amap with
    | some a =>
      let p := citationsForMatch amap rest s e (ctr + 1)
      (mkCitationInfo ctr name a s e :: p.1, p.2)
    | none => citationsForMatch amap rest s e ctr

/-- `CitationProcessor._create_interactive_citation_html`: the replacement
text for a marker whose captured group is `grp`. -/
def interactiveCitation (grp : Str) (ids : List Str) : Str :=
  "<span class=\"citation-link\" data-citation-ids=\"".toList ++
    joinComma ids ++
    "\" data-original=\"".toList ++ grp ++ "\">".toList ++
    "[Sources: ".toList ++ grp ++ "]</span>".toList

/-- The citation records created for one marker: split the captured group on
commas, strip each name, resolve. -/
def matchCitations (amap : AMap) (s e ctr : Nat) (grp : Str) :
    List CitationInfo × Nat :=
  citationsForMatch amap ((splitComma grp).map stripStr) s e ctr

/-- The replacement string spliced over one marker span: the interactive
reference carrying the ids of the accumulated citations whose start equals
this marker's start. -/
def spliceRepl (amap : AMap) (s e ctr : Nat) (grp : Str)
    (cits : List CitationInfo) : Str :=
  interactiveCitation grp
    (((cits ++ (matchCitations amap s e ctr grp).1).filter
        (fun c => c.pos_start == s)).map (·.id))

/-- The loop body of `process_response_citations`: process matches from end
to start, accumulating citation records and splicing each marker span
`[s, e)` with its interactive replacement.  `matches` is expected in
reverse (descending-position) order. -/
def processRev (amap : AMap) : List (Nat × Nat × Str) → Str →
    List CitationInfo → Nat → Str × List CitationInfo × Nat
  | [], text, cits, ctr => (text, cits, ctr)
  | (s, e, grp) :: rest, text, cits, ctr =>
    processRev amap rest
      (text.take s ++ spliceRepl amap s e ctr grp cits ++ text.drop e)
      (cits ++ (matchCitations amap s e ctr grp).1)
      (matchCitations amap s e ctr grp).2

/-- `CitationProcessor.process_response_citations`: find all citation
markers, process them in reverse position order, and return the rewritten
text together with the accumulated citation records. -/
def process_response_citations (response_text : Str)
    (source_articles : List Article) : Str × List CitationInfo :=
  let amap := create_article_map source_articles
  let ms := findMatches response_text
  let r := processRev amap ms.reverse response_text [] 0
  (r.1, r.2.1)

/-! ### Enhanced RAG validation (`app/services/enhanced_rag_prompt.py`) -/

/-- `extract_citations_from_response`: all comma-separated, stripped source
names of all citation markers, in text order. -/
def extract_citations_from_response (response : Str) : List Str :=
  ((findMatches response).map (fun m => (splitComma m.2.2).map stripStr)).flatten

/-- The result dict of `validate_rag_response`. -/
structure ValidationResult where
  has_citations : Bool
  citation_count : Nat
  citation_coverage : Rat
  valid_citations : Nat
  invalid_citations : Nat
  insufficient_info_handled : Bool
  follows_format : Bool
  quality_score : Rat
deriving DecidableEq

/-- `validate_rag_response`. -/
def validate_rag_response (response : Str) (provided_sources : List Str) :
    ValidationResult :=
  let citations := extract_citations_from_response response
  let has_citations := decide (0 < citations.length)
  let citation_coverage : Rat :=
    (citations.length : Rat) / ((max (split_on_dot response).length 1 : Nat) : Rat)
  let valid_citations :=
    citations.filter (fun cite => provided_sources.any (fun s => isSubstr s cite))
  let invalid_citations :=
    citations.filter (fun cite => !(valid_citations.contains cite))
  { has_citations := has_citations
    citation_count := citations.length
    citation_coverage := citation_coverage
    valid_citations := valid_citations.length
    invalid_citations := invalid_citations.length
    insufficient_info_handled :=
      isSubstr "insufficient information".toList (lowerStr response) &&
        decide (response.length < 200)
    follows_format := has_citations && decide (invalid_citations.length = 0)
    quality_score :=
      min 1 (((valid_citations.length : Rat) /
        ((max citations.length 1 : Nat) : Rat)) * citation_coverage) }

/-! ### HybridRetriever (`app/services/hybrid_retriever.py`) -/

/-- The fixed recognized-entity vocabulary of
`HybridRetriever.extract_entities`, in source order. -/
def common_entities : List Str :=
  ["AI", "Technology", "Climate", "Politics", "Economy",
   "Google", "Microsoft", "Tesla", "Apple", "Meta"].map String.toList

/-- `HybridRetriever.extract_entities`: every vocabulary entry whose
lowercasing occurs in the lowercased text, in vocabulary order, capped at 5. -/
def extract_entities (text : Str) : List Str :=
  (common_entities.filter
    (fun entity => isSubstr (lowerStr entity) (lowerStr text))).take 5

/-- A timeline event dict returned by `Neo4jClient.get_entity_timeline`. -/
structure TimelineEvent where
  title : Option Str := none
  published_date : Option Str := none
  supabase_id : Option Int := none
  source : Option Str := none
deriving DecidableEq

/-- A related-entity dict returned by `Neo4jClient.get_related_entities`. -/
structure RelatedEntity where
  name : Option Str := none
  type : Option Str := none
  distance : Option Int := none
  connection_strength : Option Int := none
deriving DecidableEq

/-- One per-entity result of `HybridRetriever.graph_search`. -/
structure GraphResult where
  entity : Str
  timeline : List TimelineEvent
  related_entities : List RelatedEntity
deriving DecidableEq

/-- The graph-article collection loop of `HybridRetriever.hybrid_search`
step 3: for every timeline event carrying a truthy `supabase_id`, fetch the
full article and tag it `from_graph = true`; dangling ids are skipped. -/
def graph_articles (graph_results : List GraphResult)
    (get_article_by_id : Int → Option Article) : List Article :=
  graph_results.foldl
    (fun acc g =>
      g.timeline.foldl
        (fun acc2 ev =>
          match ev.supabase_id with
          | some n =>
            if n = 0 then acc2
            else
              match get_article_by_id n with
              | some a => acc2 ++ [{ a with from_graph := true }]
              | none => acc2
          | none => acc2)
        acc)
    []

/-- The deduplication loop of `hybrid_search`: keep the first occurrence of
each truthy article id, dropping articles with falsy ids entirely. -/
def dedupAux : List Article → List Int → List Article
  | [], _ => []
  | a :: rest, seen =>
    match a.id with
    | some n =>
      if n ≠ 0 ∧ n ∉ seen then a :: dedupAux rest (n :: seen)
      else dedupAux rest seen
    | none => dedupAux rest seen

/-- `hybrid_search` steps 4-5 input list deduplicated by article id. -/
def dedupById (l : List Article) : List Article := dedupAux l []

/-- `HybridRetriever.hybrid_search`, article-fusion part: vector results
(for `vector`/`hybrid` search types) are appended first, graph-discovered
articles (for `graph`/`hybrid` with non-empty query entities) second; the
combined list is deduplicated by id (first occurrence wins) and truncated
to `limit`.  `search_type` is the raw request string. -/
def hybrid_fuse_articles (search_type : Str) (vector_results : List Article)
    (graph_results : List GraphResult) (get_article_by_id : Int → Option Article)
    (query_entities : List Str) (limit : Nat) : List Article :=
  let base :=
    if search_type == "vector".toList || search_type == "hybrid".toList then
      vector_results
    else []
  let g_arts :=
    if (search_type == "graph".toList || search_type == "hybrid".toList) &&
        !query_entities.isEmpty then
      graph_articles graph_results get_article_by_id
    else []
  (dedupById (base ++ g_arts)).take limit

/-- The query string `f"{title} {content}"` built by
`find_similar_articles` from the reference article. -/
def searchTextOf (ref : Article) : Str :=
  ref.title.getD [] ++ ' ' :: ref.content.getD []

/-- `HybridRetriever.find_similar_articles`: fetch the reference article
(empty result if missing), run vector search with `limit + 1` candidates on
its title+content, filter out the reference article's own id, truncate to
`limit`.  `vector_search` abstracts the vector-search collaborator
(query, limit, similarity threshold → articles). -/
def find_similar_articles (get_article_by_id : Int → Option Article)
    (vector_search : Str → Nat → Rat → List Article)
    (article_id : Int) (limit : Nat) (similarity_threshold : Rat) :
    List Article :=
  match get_article_by_id article_id with
  | none => []
  | some ref =>
    ((vector_search (searchTextOf ref) (limit + 1) similarity_threshold).filter
      (fun a => !(a.id == some article_id))).take limit

/-! ### Graph query layer (`app/database/neo4j_client.py`)

Each public query method wraps its whole body in `try/except` and returns
`[]` on any exception; an uninitialized driver (`self.driver is None`)
raises inside the `try` and is therefore also caught.  The Neo4j session is
modelled as an `Except`-valued runner: `Except.error` is a raised
exception, and `driver = none` is the unconfigured client. -/

/-- The session behind `get_entity_timeline` (entity name, limit). -/
abbrev TimelineRunner := Str → Nat → Except Str (List TimelineEvent)

/-- The session behind `get_related_entities` (entity name, max depth, limit). -/
abbrev RelatedRunner := Str → Nat → Nat → Except Str (List RelatedEntity)

/-- An entity record returned by `search_entities_by_name`. -/
structure EntityRecord where
  name : Option Str := none
  type : Option Str := none
  mention_count : Option Int := none
deriving DecidableEq

/-- The session behind `search_entities_by_name` (query, type filter, limit). -/
abbrev EntitySearchRunner := Str → Option Str → Nat → Except Str (List EntityRecord)

/-- `Neo4jClient.get_entity_timeline` with its catch-all exception handler. -/
def get_entity_timeline (driver : Option TimelineRunner) (entity_name : Str)
    (limit : Nat) : List TimelineEvent :=
  match driver with
  | none => []
  | some run =>
    match run entity_name limit with
    | Except.ok records => records
    | Except.error _ => []

/-- `Neo4jClient.get_related_entities` with its catch-all exception handler. -/
def get_related_entities (driver : Option RelatedRunner) (entity_name : Str)
    (max_depth : Nat) (limit : Nat) : List RelatedEntity :=
  match driver with
  | none => []
  | some run =>
    match run entity_name max_depth limit with
    | Except.ok records => records
    | Except.error _ => []

/-- `Neo4jClient.search_entities_by_name` with its catch-all exception
handler. -/
def search_entities_by_name (driver : Option EntitySearchRunner) (query : Str)
    (entity_type : Option Str) (limit : Nat) : List EntityRecord :=
  match driver with
  | none => []
  | some run =>
    match run query entity_type limit with
    | Except.ok records => records
    | Except.error _ => []

/-! ### Conversational orchestrator history
(`app/services/langgraph_agent.py`, `app/services/rag_enhanced_agent.py`) -/

/-- A conversation-history message (role + content; the timestamp and
source annotations play no role in the history-length behavior). -/
structure ChatMessage where
  role : Str
  content : Str
deriving DecidableEq

/-- One completed `LangGraphAgent.process_message` turn on a conversation's
history: append the user message, append the assistant message, then
truncate to the most recent 20 entries if the list exceeds 20. -/
def lang_graph_turn (hist : List ChatMessage) (u a : ChatMessage) :
    List ChatMessage :=
  let h2 := (hist ++ [u]) ++ [a]
  if 20 < h2.length then h2.drop (h2.length - 20) else h2

/-- One completed `RAGEnhancedAgent.process_message_with_rag_details` turn
on a conversation's history: append the user message and the assistant
message; this code path applies no truncation. -/
def rag_enhanced_turn (hist : List ChatMessage) (u a : ChatMessage) :
    List ChatMessage :=
  (hist ++ [u]) ++ [a]

/-- `n` successive completed turns of the same orchestrator on one
conversation, starting from the empty history. -/
def iterateTurns (f : List ChatMessage → ChatMessage → ChatMessage → List ChatMessage)
    (u a : ChatMessage) : Nat → List ChatMessage
  | 0 => []
  | n + 1 => f (iterateTurns f u a n) u a

/-! ### Concrete inputs used by witnesses and counterexamples -/

/-- A source article with a title, for concrete citation runs. -/
def exArticleT : Article :=
  { id := some 7, title := some "T".toList, source := some "Wire".toList,
    content := some "Body text".toList, similarity_score := some (4/5) }

/-- A source article whose `title` key is missing. -/
def exArticleNoTitle : Article :=
  { id := some 9, source := some "Wire".toList, content := some "Other body".toList }

/-- A response text with two resolvable citation markers. -/
def exTwoMarkers : Str := "A [Source: T]. B [Source: T].".toList

/-- A response text with one citation marker. -/
def exOneMarker : Str := "[Source: T]".toList

/-- A failing timeline session: every call raises. -/
def exFailTimeline : TimelineRunner := fun _ _ => Except.error "down".toList

/-- A failing related-entities session: every call raises. -/
def exFailRelated : RelatedRunner := fun _ _ _ => Except.error "down".toList

/-- A failing entity-search session: every call raises. -/
def exFailEntitySearch : EntitySearchRunner := fun _ _ _ => Except.error "down".toList

/-- A chat message for history iteration. -/
def exMsg : ChatMessage := { role := "user".toList, content := "hi".toList }

/-- A two-article store for the similar-articles witness. -/
def exGetById : Int → Option Article
  | 1 => some { id := some 1, title := some "One".toList, content := some "X".toList }
  | 2 => some { id := some 2, title := some "Two".toList, content := some "Y".toList }
  | _ => none

/-- A vector search that returns the reference article first, then another. -/
def exVectorSearch : Str → Nat → Rat → List Article :=
  fun _ _ _ =>
    [{ id := some 1, title := some "One".toList, similarity_score := some (9/10) },
     { id := some 2, title := some "Two".toList, similarity_score := some (1/2) }]

/-- The vector-search record of the fusion witness: article 1 with a
similarity score and a snippet, no `from_graph` tag. -/
def exFuseVecArticle : Article :=
  { id := some 1, title := some "OpenAI Releases Assistant".toList,
    similarity_score := some (81/100), snippet := some "launch".toList }

/-- Vector-search results for the fusion witness: one scored article. -/
def exVres : List Article := [exFuseVecArticle]

/-- The graph-sourced duplicate of article 1 produced by the fusion witness
(store record tagged `from_graph`). -/
def exGraphDup : Article :=
  { id := some 1, title := some "OpenAI Releases Assistant".toList,
    content := some "Full body".toList, from_graph := true }

/-- Graph results for the fusion witness: a timeline event pointing at the
same article id 1. -/
def exGres : List GraphResult :=
  [{ entity := "OpenAI".toList,
     timeline := [{ title := some "OpenAI Releases Assistant".toList,
                    supabase_id := some 1 }],
     related_entities := [] }]

/-- The store for the fusion witness. -/
def exFuseGetById : Int → Option Article
  | 1 => some { id := some 1, title := some "OpenAI Releases Assistant".toList,
                content := some "Full body".toList }
  | _ => none

/-- The fused article list of the fusion witness. -/
def exFusedArticles : List Article :=
  hybrid_fuse_articles "hybrid".toList exVres exGres exFuseGetById
    ["OpenAI".toList] 10

/-- The record the fusion witness retains for article id 1. -/
def exFusedHead : Article := exFusedArticles.headD exGraphDup

/-! ## Theorems -/

/-- If filtering a list leaves exactly `[a]`, then `a` is the first element
satisfying the predicate. -/
theorem filter_singleton_find {α : Type} (p : α → Bool) (l : List α) (a : α)
    (h : l.filter p = [a]) : l.find? p = some a := by
  induction l with
  | nil => simp at h
  | cons x rest ih =>
    by_cases hx : p x
    · rw [List.filter_cons_of_pos hx] at h
      injection h with h1 h2
      subst h1
      exact List.find?_cons_of_pos _ hx
    · rw [List.filter_cons_of_neg (by simpa using hx)] at h
      rw [List.find?_cons_of_neg _ (by simpa using hx)]
      exact ih h

/-- Every article surviving the `hybrid_search` deduplication loop has a
truthy, previously unseen id and is the first element of the input carrying
that id. -/
theorem dedupAux_first (l : List Article) :
    ∀ (seen : List Int) (b : Article) (n : Int), b ∈ dedupAux l seen →
      b.id = some n →
      n ≠ 0 ∧ n ∉ seen ∧ l.find? (fun x => x.id == some n) = some b := by
  induction l with
  | nil => intro seen b n hb _; simp [dedupAux] at hb
  | cons a rest ih =>
    intro seen b n hb hbn
    cases ha : a.id with
    | none =>
      simp only [dedupAux, ha] at hb
      obtain ⟨hn0, hns, hfind⟩ := ih seen b n hb hbn
      refine ⟨hn0, hns, ?_⟩
      rw [List.find?_cons_of_neg _ (by simp [ha]), hfind]
    | some m =>
      simp only [dedupAux, ha] at hb
      by_cases hcond : m ≠ 0 ∧ m ∉ seen
      · rw [if_pos hcond] at hb
        rcases List.mem_cons.mp hb with hba | hbr
        · subst hba
          rw [ha] at hbn
          injection hbn with hmn
          subst hmn
          refine ⟨hcond.1, hcond.2, List.find?_cons_of_pos _ ?_⟩
          simp [ha]
        · obtain ⟨hn0, hns, hfind⟩ := ih (m :: seen) b n hbr hbn
          have hnm : n ≠ m := fun he => hns (he ▸ List.mem_cons_self m seen)
          refine ⟨hn0, fun hs => hns (List.mem_cons_of_mem _ hs), ?_⟩
          rw [List.find?_cons_of_neg, hfind]
          simp only [ha, beq_iff_eq, Option.some.injEq]
          exact fun he => hnm he.symm
      · rw [if_neg hcond] at hb
        obtain ⟨hn0, hns, hfind⟩ := ih seen b n hb hbn
        refine ⟨hn0, hns, ?_⟩
        rw [List.find?_cons_of_neg, hfind]
        simp only [ha, beq_iff_eq, Option.some.injEq]
        intro hmn
        subst hmn
        rcases not_and_or.mp hcond with h0 | hs
        · exact hn0 (by simpa using h0)
        · exact hns (by simpa using hs)

/-- First occurrence wins in the fused, deduplicated article list: if the
vector results contain exactly one article with id `n`, any surviving
record with id `n` is that vector record, whatever graph articles follow. -/
theorem dedup_append_first (v g : List Article) (n : Int) (a b : Article)
    (hv : v.filter (fun x => x.id == some n) = [a])
    (hb : b ∈ dedupById (v ++ g)) (hbn : b.id = some n) : b = a := by
  have h1 := (dedupAux_first (v ++ g) [] b n hb hbn).2.2
  have h2 : (v ++ g).find? (fun x => x.id == some n) = some a := by
    rw [List.find?_append, filter_singleton_find _ v a hv]
    rfl
  rw [h1] at h2
  injection h2 with h2

/-- Claim C1: in hybrid fusion, when the same article id is produced once by
vector search and once via the graph-timeline lookup, the deduplicated
result keeps the first occurrence — the retained record for that id is the
vector-search record, carrying its similarity score, snippet and
`from_graph` flag, not the graph-sourced duplicate. -/
theorem claim_C1 (vector_results : List Article)
    (graph_results : List GraphResult)
    (get_article_by_id : Int → Option Article) (query_entities : List Str)
    (limit : Nat) (n : Int) (a b : Article)
    (hv : vector_results.filter (fun x => x.id == some n) = [a])
    (_hg : ∃ g ∈ graph_articles graph_results get_article_by_id, g.id = some n)
    (hb : b ∈ hybrid_fuse_articles "hybrid".toList vector_results graph_results
        get_article_by_id query_entities limit)
    (hbn : b.id = some n) :
    b = a ∧ b.similarity_score = a.similarity_score ∧ b.snippet = a.snippet ∧
      b.from_graph = a.from_graph := by
  have hbase : ("hybrid".toList == "vector".toList ||
      "hybrid".toList == "hybrid".toList) = true := by decide
  simp only [hybrid_fuse_articles, hbase, if_true] at hb
  have hb' := List.mem_of_mem_take hb
  have h := dedup_append_first vector_results _ n a b hv hb' hbn
  exact ⟨h, by rw [h], by rw [h], by rw [h]⟩

/-- Witness for C1: with vector search and the graph timeline both
producing article id 1, the fused list retains the vector record with its
similarity score and snippet and without the `from_graph` tag. -/
theorem claim_C1_witness :
    exFusedHead = exFuseVecArticle ∧
    exFusedHead.similarity_score = some (81 / 100) ∧
    exFusedHead.snippet = some "launch".toList ∧
    exFusedHead.from_graph = false := by
  have hga : graph_articles exGres exFuseGetById = [exGraphDup] := rfl
  have hfused : hybrid_fuse_articles "hybrid".toList exVres exGres exFuseGetById
      ["OpenAI".toList] 10 = [exFuseVecArticle] := rfl
  have h := claim_C1 exVres exGres exFuseGetById ["OpenAI".toList] 10 1
    exFuseVecArticle exFusedHead rfl
    ⟨exGraphDup, by rw [hga]; exact List.mem_singleton_self _, rfl⟩
    (by rw [hfused]; exact List.mem_singleton.mpr rfl) rfl
  exact ⟨h.1, h.2.1.trans rfl, h.2.2.1.trans rfl, h.2.2.2.trans rfl⟩

/-- Claim C5: if the graph store is unavailable (`driver = none`) or every
graph-store call raises, then `get_entity_timeline`, `get_related_entities`
and `search_entities_by_name` each return `[]` to the caller; being total
functions into `List`, they propagate no exception. -/
theorem claim_C5 (entity_name q : Str) (entity_type : Option Str)
    (limit max_depth : Nat) (tr : TimelineRunner) (rr : RelatedRunner)
    (sr : EntitySearchRunner) :
    (get_entity_timeline none entity_name limit = [] ∧
      get_related_entities none entity_name max_depth limit = [] ∧
      search_entities_by_name none q entity_type limit = []) ∧
    ((∀ n l, ∃ msg, tr n l = Except.error msg) →
      get_entity_timeline (some tr) entity_name limit = []) ∧
    ((∀ n d l, ∃ msg, rr n d l = Except.error msg) →
      get_related_entities (some rr) entity_name max_depth limit = []) ∧
    ((∀ s t l, ∃ msg, sr s t l = Except.error msg) →
      search_entities_by_name (some sr) q entity_type limit = []) := by
  refine ⟨⟨rfl, rfl, rfl⟩, ?_, ?_, ?_⟩
  · intro h
    obtain ⟨msg, hmsg⟩ := h entity_name limit
    simp [get_entity_timeline, hmsg]
  · intro h
    obtain ⟨msg, hmsg⟩ := h entity_name max_depth limit
    simp [get_related_entities, hmsg]
  · intro h
    obtain ⟨msg, hmsg⟩ := h q entity_type limit
    simp [search_entities_by_name, hmsg]

/-- Witness for C5 at concrete inputs: an unconfigured driver and
always-raising sessions all yield empty results. -/
theorem claim_C5_witness :
    get_entity_timeline none "Tesla".toList 50 = [] ∧
    get_entity_timeline (some exFailTimeline) "Tesla".toList 50 = [] ∧
    get_related_entities (some exFailRelated) "Tesla".toList 2 20 = [] ∧
    search_entities_by_name (some exFailEntitySearch) "Te".toList none 20 = [] := by
  have h := claim_C5 "Tesla".toList "Te".toList none 50 2
    exFailTimeline exFailRelated exFailEntitySearch
  refine ⟨h.1.1, h.2.1 ?_, ?_, ?_⟩
  · exact fun n l => ⟨"down".toList, rfl⟩
  · have h2 := claim_C5 "Tesla".toList "Te".toList none 20 2
      exFailTimeline exFailRelated exFailEntitySearch
    exact h2.2.2.1 (fun n d l => ⟨"down".toList, rfl⟩)
  · have h3 := claim_C5 "Tesla".toList "Te".toList none 20 2
      exFailTimeline exFailRelated exFailEntitySearch
    exact h3.2.2.2 (fun s t l => ⟨"down".toList, rfl⟩)

/-- Counterexample to claim C6 as stated: in the text "Tesla and Google"
the entity "Tesla" first appears at index 0 and "Google" at index 10, yet
`extract_entities` returns `["Google", "Tesla"]` — the fixed vocabulary
order, not the order of first appearance in the input text. -/
theorem claim_C6_cx :
    extract_entities "Tesla and Google".toList =
      ["Google".toList, "Tesla".toList] ∧
    substrPos (lowerStr "Tesla".toList) (lowerStr "Tesla and Google".toList) =
      some 0 ∧
    substrPos (lowerStr "Google".toList) (lowerStr "Tesla and Google".toList) =
      some 10 := by
  refine ⟨by decide, by decide, by decide⟩

/-- Claim C6, amended: `extract_entities` returns at most 5 names, each a
recognized vocabulary entry whose lowercasing occurs in the lowercased
input text, listed in the fixed vocabulary order (a sublist of
`common_entities`), not in order of first appearance. -/
theorem claim_C6 (text : Str) :
    (extract_entities text).length ≤ 5 ∧
    (extract_entities text).Sublist common_entities ∧
    ∀ e ∈ extract_entities text,
      isSubstr (lowerStr e) (lowerStr text) = true := by
  refine ⟨?_, ?_, ?_⟩
  · exact List.length_take_le 5 _
  · exact (List.take_sublist 5 _).trans (List.filter_sublist _)
  · intro e he
    simp only [extract_entities] at he
    have hf : e ∈ List.filter
        (fun entity => isSubstr (lowerStr entity) (lowerStr text))
        common_entities := List.mem_of_mem_take he
    simpa using List.of_mem_filter hf

/-- Counterexample to claim C7 as stated: eleven completed turns of
`RAGEnhancedAgent.process_message_with_rag_details` on one conversation
leave a stored message list of length 22, exceeding the cap of 20 — that
orchestrator never truncates. -/
theorem claim_C7_cx :
    (iterateTurns rag_enhanced_turn exMsg exMsg 11).length = 22 ∧
    20 < (iterateTurns rag_enhanced_turn exMsg exMsg 11).length := by
  refine ⟨by decide, by decide⟩

/-- Claim C7, amended: after a completed `LangGraphAgent.process_message`
turn the stored list has length at most 20 and equals the most recent 20
entries (oldest dropped) of the appended history; the RAG-enhanced
orchestrator's turn (`rag_enhanced_turn`) applies no such cap. -/
theorem claim_C7 (hist : List ChatMessage) (u a : ChatMessage) :
    (lang_graph_turn hist u a).length ≤ 20 ∧
    lang_graph_turn hist u a =
      ((hist ++ [u]) ++ [a]).drop (((hist ++ [u]) ++ [a]).length - 20) := by
  unfold lang_graph_turn
  by_cases h : 20 < ((hist ++ [u]) ++ [a]).length
  · rw [if_pos h]
    refine ⟨?_, rfl⟩
    rw [List.length_drop]
    omega
  · rw [if_neg h]
    have h0 : ((hist ++ [u]) ++ [a]).length - 20 = 0 := by omega
    rw [h0, List.drop_zero]
    exact ⟨by omega, rfl⟩

/-- Claim C8: `find_similar_articles` returns `[]` when the reference
article does not exist, never returns an article whose id equals the
reference id, returns at most `limit` articles, and (when the reference
exists) is exactly the `limit + 1`-candidate vector search with the
reference id filtered out and the result truncated to `limit`. -/
theorem claim_C8 (get_article_by_id : Int → Option Article)
    (vector_search : Str → Nat → Rat → List Article) (article_id : Int)
    (limit : Nat) (t : Rat) :
    (get_article_by_id article_id = none →
      find_similar_articles get_article_by_id vector_search article_id limit t = []) ∧
    (∀ a ∈ find_similar_articles get_article_by_id vector_search article_id limit t,
      a.id ≠ some article_id) ∧
    (find_similar_articles get_article_by_id vector_search article_id limit t).length ≤ limit ∧
    (∀ ref, get_article_by_id article_id = some ref →
      find_similar_articles get_article_by_id vector_search article_id limit t =
        ((vector_search (searchTextOf ref) (limit + 1) t).filter
          (fun a => !(a.id == some article_id))).take limit) := by
  cases h : get_article_by_id article_id with
  | none =>
    refine ⟨fun _ => ?_, ?_, ?_, ?_⟩
    · simp [find_similar_articles, h]
    · intro a ha
      simp [find_similar_articles, h] at ha
    · simp [find_similar_articles, h]
    · intro ref href
      exact absurd href (by simp)
  | some ref =>
    refine ⟨fun hc => ?_, ?_, ?_, ?_⟩
    · exact absurd hc (by simp)
    · intro a ha
      simp only [find_similar_articles, h] at ha
      have hf := List.mem_of_mem_take ha
      have := List.of_mem_filter hf
      simpa using this
    · simp only [find_similar_articles, h]
      exact List.length_take_le limit _
    · intro ref' href
      injection href with href
      subst href
      simp [find_similar_articles, h]

/-- Witness for C8 at concrete inputs: a missing reference yields `[]`, and
with an existing reference the result obeys the `limit` bound. -/
theorem claim_C8_witness :
    find_similar_articles exGetById exVectorSearch 5 2 0 = [] ∧
    (find_similar_articles exGetById exVectorSearch 1 2 0).length ≤ 2 := by
  refine ⟨(claim_C8 exGetById exVectorSearch 5 2 0).1 rfl,
    (claim_C8 exGetById exVectorSearch 1 2 0).2.2.1⟩

/-- Claim C9: the `quality_score` computed by `validate_rag_response` always
lies in `[0, 1]`: it is `min 1` of a product of ratios of non-negative
counts with positive denominators, even for responses with no sentences or
no citations. -/
theorem claim_C9 (response : Str) (provided_sources : List Str) :
    0 ≤ (validate_rag_response response provided_sources).quality_score ∧
    (validate_rag_response response provided_sources).quality_score ≤ 1 := by
  simp only [validate_rag_response]
  constructor
  · refine le_min (by norm_num) ?_
    refine mul_nonneg ?_ ?_
    · exact div_nonneg (Nat.cast_nonneg _) (Nat.cast_nonneg _)
    · exact div_nonneg (Nat.cast_nonneg _) (Nat.cast_nonneg _)
  · exact min_le_left _ _

/-! ### Lemmas about the citation-marker scanner -/

/-- `matchTail` consumes exactly `k` characters. -/
theorem matchTail_spec : ∀ (r : Str) (k : Nat) (r2 : Str),
    matchTail r = some (k, r2) → r.length = k + r2.length := by
  intro r k r2 h
  unfold matchTail at h
  split at h
  · simp only [Option.some.injEq, Prod.mk.injEq] at h
    obtain ⟨hk, hr⟩ := h
    subst hk
    subst hr
    simp only [List.length_cons]
    omega
  · simp only [Option.some.injEq, Prod.mk.injEq] at h
    obtain ⟨hk, hr⟩ := h
    subst hk
    subst hr
    simp only [List.length_cons]
    omega
  · simp at h

/-- A successful match never runs past the end of the scanned text. -/
theorem matchAtCore_len_le : ∀ (l : Str) (lenm1 : Nat) (g : Str),
    matchAtCore l = some (lenm1, g) → lenm1 + 1 ≤ l.length := by
  intro l lenm1 g h
  unfold matchAtCore at h
  split at h
  · simp at h
  · rename_i c r1
    split_ifs at h with hc
    · split at h
      · rename_i k r2 heq
        split_ifs at h with hw
        · simp only [Option.some.injEq, Prod.mk.injEq] at h
          obtain ⟨hlen, _⟩ := h
          subst hlen
          have h6 : 6 ≤ r1.length := by
            have hct := congrArg List.length hc.2
            simp only [List.length_take] at hct
            have hmin : min 6 r1.length = 6 := by
              rw [hct]; rfl
            omega
          have hmtl := matchTail_spec _ _ _ heq
          rw [List.length_drop] at hmtl
          simp only [List.length_cons]
          omega
      · simp at h

/-- The captured group of a non-empty run is non-empty and a sub-multiset
of the run. -/
theorem groupOf_spec (w : Str) (hw : 0 < w.length) :
    groupOf w ≠ [] ∧ ∀ ch ∈ groupOf w, ch ∈ w := by
  unfold groupOf
  by_cases hp : (w.takeWhile pyWs).length = w.length
  · rw [if_pos hp]
    constructor
    · have hl : (w.drop (w.length - 1)).length = 1 := by
        rw [List.length_drop]; omega
      intro hnil
      rw [hnil] at hl
      simp at hl
    · intro ch hch
      exact List.mem_of_mem_drop hch
  · rw [if_neg hp]
    have hle : (w.takeWhile pyWs).length ≤ w.length := by
      simpa using (List.takeWhile_sublist _).length_le
    constructor
    · intro hnil
      have := congrArg List.length hnil
      rw [List.length_drop] at this
      simp only [List.length_nil] at this
      omega
    · intro ch hch
      exact List.mem_of_mem_drop hch

/-- The captured group of a successful match is non-empty and contains no
closing bracket. -/
theorem matchAtCore_group : ∀ (l : Str) (lenm1 : Nat) (g : Str),
    matchAtCore l = some (lenm1, g) → g ≠ [] ∧ ∀ ch ∈ g, ch ≠ ']' := by
  intro l lenm1 g h
  unfold matchAtCore at h
  split at h
  · simp at h
  · rename_i c r1
    split_ifs at h with hc
    · split at h
      · rename_i k r2 heq
        split_ifs at h with hw
        · simp only [Option.some.injEq, Prod.mk.injEq] at h
          obtain ⟨_, hg⟩ := h
          subst hg
          obtain ⟨hne, hmem⟩ := groupOf_spec _ hw.1
          refine ⟨hne, fun ch hch => ?_⟩
          have hw2 := hmem ch hch
          have hdec := List.mem_takeWhile_imp hw2
          exact of_decide_eq_true hdec
      · simp at h

/-- `Spans` tolerates lowering the lower bound. -/
theorem Spans_mono_lo : ∀ (ms : List (Nat × Nat × Str)) (lo' lo hi : Nat),
    lo' ≤ lo → Spans lo hi ms → Spans lo' hi ms := by
  intro ms lo' lo hi h hs
  cases ms with
  | nil => trivial
  | cons m rest =>
    obtain ⟨s, e, g⟩ := m
    simp only [Spans] at hs ⊢
    exact ⟨le_trans h hs.1, hs.2⟩

/-- `Spans` tolerates raising the upper bound. -/
theorem Spans_mono_hi : ∀ (ms : List (Nat × Nat × Str)) (lo hi hi' : Nat),
    Spans lo hi ms → hi ≤ hi' → Spans lo hi' ms := by
  intro ms
  induction ms with
  | nil => intro lo hi hi' _ _; trivial
  | cons m rest ih =>
    intro lo hi hi' hs hh
    obtain ⟨s, e, g⟩ := m
    simp only [Spans] at hs ⊢
    exact ⟨hs.1, hs.2.1, le_trans hs.2.2.1 hh, ih e hi hi' hs.2.2.2 hh⟩

/-- The scan ignores the exact fuel value as long as it is at least the
text length. -/
theorem findMatchesAux_congr : ∀ (fuel fuel' : Nat) (l : Str) (pos : Nat),
    l.length ≤ fuel → l.length ≤ fuel' →
    findMatchesAux fuel l pos = findMatchesAux fuel' l pos := by
  intro fuel
  induction fuel with
  | zero =>
    intro fuel' l pos h1 _
    have hl : l = [] := List.eq_nil_of_length_eq_zero (Nat.le_zero.mp h1)
    subst hl
    cases fuel' <;> rfl
  | succ f ih =>
    intro fuel' l pos h1 h2
    cases l with
    | nil => cases fuel' <;> rfl
    | cons c rest =>
      cases fuel' with
      | zero => simp at h2
      | succ f' =>
        simp only [List.length_cons] at h1 h2
        simp only [findMatchesAux]
        cases hm : matchAtCore (c :: rest) with
        | some p =>
          obtain ⟨lenm1, grp⟩ := p
          simp only [hm]
          congr 1
          apply ih
          · rw [List.length_drop]; omega
          · rw [List.length_drop]; omega
        | none =>
          simp only [hm]
          apply ih <;> omega

/-- The scanner produces ascending, non-overlapping spans inside the
scanned region. -/
theorem findMatchesAux_spans : ∀ (fuel : Nat) (l : Str) (pos : Nat),
    l.length ≤ fuel → Spans pos (pos + l.length) (findMatchesAux fuel l pos) := by
  intro fuel
  induction fuel with
  | zero => intro l pos _; simp only [findMatchesAux]; trivial
  | succ f ih =>
    intro l pos h
    cases l with
    | nil => simp only [findMatchesAux]; trivial
    | cons c rest =>
      simp only [findMatchesAux]
      simp only [List.length_cons] at h
      cases hm : matchAtCore (c :: rest) with
      | none =>
        simp only [hm]
        have hr := ih rest (pos + 1) (by omega)
        refine Spans_mono_lo _ _ _ _ (Nat.le_succ pos)
          (Spans_mono_hi _ _ _ _ hr ?_)
        simp only [List.length_cons]
        omega
      | some p =>
        obtain ⟨lenm1, grp⟩ := p
        simp only [hm]
        have hle := matchAtCore_len_le _ _ _ hm
        simp only [List.length_cons] at hle
        simp only [Spans, List.length_cons]
        refine ⟨le_refl _, by omega, by omega, ?_⟩
        have hr := ih (rest.drop lenm1) (pos + (lenm1 + 1))
          (by rw [List.length_drop]; omega)
        refine Spans_mono_hi _ _ _ _ hr ?_
        rw [List.length_drop]
        omega

/-- If the scan finds nothing, no suffix of the text matches the pattern. -/
theorem findMatchesAux_none : ∀ (fuel : Nat) (l : Str) (pos : Nat),
    l.length ≤ fuel → findMatchesAux fuel l pos = [] →
    ∀ i, matchAtCore (l.drop i) = none := by
  intro fuel
  induction fuel with
  | zero =>
    intro l pos h _ i
    have hl : l = [] := List.eq_nil_of_length_eq_zero (Nat.le_zero.mp h)
    subst hl
    rw [List.drop_nil]
    rfl
  | succ f ih =>
    intro l pos h hempty i
    cases l with
    | nil => rw [List.drop_nil]; rfl
    | cons c rest =>
      simp only [List.length_cons] at h
      simp only [findMatchesAux] at hempty
      cases hm : matchAtCore (c :: rest) with
      | some p =>
        obtain ⟨lenm1, grp⟩ := p
        simp only [hm] at hempty
        exact (List.cons_ne_nil _ _ hempty).elim
      | none =>
        simp only [hm] at hempty
        cases i with
        | zero => exact hm
        | succ j =>
          rw [List.drop_succ_cons]
          exact ih rest (pos + 1) (by omega) hempty j

/-- Every match the scanner reports has a well-formed captured group:
non-empty, with no closing bracket inside. -/
theorem findMatchesAux_group : ∀ (fuel : Nat) (l : Str) (pos : Nat)
    (m : Nat × Nat × Str), m ∈ findMatchesAux fuel l pos →
    m.2.2 ≠ [] ∧ ∀ ch ∈ m.2.2, ch ≠ ']' := by
  intro fuel
  induction fuel with
  | zero => intro l pos m hm; simp [findMatchesAux] at hm
  | succ f ih =>
    intro l pos m hm
    cases l with
    | nil => simp [findMatchesAux] at hm
    | cons c rest =>
      simp only [findMatchesAux] at hm
      cases hmc : matchAtCore (c :: rest) with
      | some p =>
        obtain ⟨lenm1, grp⟩ := p
        simp only [hmc] at hm
        rcases List.mem_cons.mp hm with hh | ht
        · subst hh
          exact matchAtCore_group _ _ _ hmc
        · exact ih _ _ m ht
      | none =>
        simp only [hmc] at hm
        exact ih _ _ m hm

/-- `DSpans` tolerates raising the bound. -/
theorem DSpans_mono : ∀ (des : List (Nat × Nat × Str)) (hi hi' : Nat),
    DSpans hi des → hi ≤ hi' → DSpans hi' des := by
  intro des hi hi' hd hh
  cases des with
  | nil => trivial
  | cons m rest =>
    obtain ⟨s, e, g⟩ := m
    simp only [DSpans] at hd ⊢
    exact ⟨hd.1, le_trans hd.2.1 hh, hd.2.2⟩

/-- All spans of a descending chain lie below the bound. -/
theorem DSpans_bounds : ∀ (des : List (Nat × Nat × Str)) (hi : Nat),
    DSpans hi des → ∀ m ∈ des, m.1 < m.2.1 ∧ m.2.1 ≤ hi := by
  intro des
  induction des with
  | nil => intro hi _ m hm; simp at hm
  | cons m0 rest ih =>
    intro hi hd m hm
    obtain ⟨s, e, g⟩ := m0
    simp only [DSpans] at hd
    rcases List.mem_cons.mp hm with hh | ht
    · subst hh
      exact ⟨hd.1, hd.2.1⟩
    · obtain ⟨h1, h2⟩ := ih s hd.2.2 m ht
      exact ⟨h1, le_trans h2 (le_trans (le_of_lt hd.1) hd.2.1)⟩

/-- Reversing an ascending chain (on top of a compatible descending tail)
yields a descending chain. -/
theorem Spans_rev_dspans : ∀ (ms : List (Nat × Nat × Str)) (lo hi : Nat)
    (ds : List (Nat × Nat × Str)), Spans lo hi ms → DSpans lo ds → lo ≤ hi →
    DSpans hi (ms.reverse ++ ds) := by
  intro ms
  induction ms with
  | nil =>
    intro lo hi ds _ hds hlh
    simpa using DSpans_mono ds lo hi hds hlh
  | cons m rest ih =>
    intro lo hi ds hs hds hlh
    obtain ⟨s, e, g⟩ := m
    simp only [Spans] at hs
    obtain ⟨hlos, hse, hehi, hrest⟩ := hs
    rw [List.reverse_cons, List.append_assoc, List.singleton_append]
    refine ih e hi ((s, e, g) :: ds) hrest ?_ hehi
    simp only [DSpans]
    exact ⟨hse, le_refl _, DSpans_mono ds lo s hds hlos⟩

/-- Reversing a descending chain (followed by a compatible ascending tail)
yields an ascending chain from 0. -/
theorem DSpans_rev_spans : ∀ (des : List (Nat × Nat × Str)) (hi k : Nat)
    (ms : List (Nat × Nat × Str)), DSpans hi des → Spans hi k ms → hi ≤ k →
    Spans 0 k (des.reverse ++ ms) := by
  intro des
  induction des with
  | nil =>
    intro hi k ms _ hs _
    simpa using Spans_mono_lo ms 0 hi k (Nat.zero_le hi) hs
  | cons m rest ih =>
    intro hi k ms hd hs hhk
    obtain ⟨s, e, g⟩ := m
    simp only [DSpans] at hd
    obtain ⟨hse, hehi, hrest⟩ := hd
    rw [List.reverse_cons, List.append_assoc, List.singleton_append]
    refine ih s k ((s, e, g) :: ms) hrest ?_ ?_
    · simp only [Spans]
      exact ⟨le_refl _, hse, le_trans hehi hhk, Spans_mono_lo ms e hi k hehi hs⟩
    · exact le_trans (le_of_lt hse) (le_trans hehi hhk)

/-! ### Lemmas about the citation-processing loop -/

/-- Every citation created for a marker carries that marker's start offset. -/
theorem citationsForMatch_start (amap : AMap) : ∀ (names : List Str)
    (s e ctr : Nat) (c : CitationInfo),
    c ∈ (citationsForMatch amap names s e ctr).1 → c.pos_start = s := by
  intro names
  induction names with
  | nil => intro s e ctr c hc; simp [citationsForMatch] at hc
  | cons name rest ih =>
    intro s e ctr c hc
    simp only [citationsForMatch] at hc
    cases hf : find_matching_article name amap with
    | none =>
      rw [hf] at hc
      exact ih s e ctr c hc
    | some a =>
      rw [hf] at hc
      rcases List.mem_cons.mp hc with hh | ht
      · subst hh; rfl
      · exact ih s e (ctr + 1) c ht

/-- When every name resolves, one citation is created per parsed name. -/
theorem citationsForMatch_count (amap : AMap)
    (hres : ∀ name, (find_matching_article name amap).isSome) :
    ∀ (names : List Str) (s e ctr : Nat),
    (citationsForMatch amap names s e ctr).1.length = names.length := by
  intro names
  induction names with
  | nil => intro s e ctr; simp [citationsForMatch]
  | cons name rest ih =>
    intro s e ctr
    simp only [citationsForMatch]
    cases hf : find_matching_article name amap with
    | none =>
      have := hres name
      rw [hf] at this
      simp at this
    | some a =>
      simp only [List.length_cons, ih]

/-- Localization: when all spans lie inside the prefix `t`, processing
`t ++ u` splices only inside `t` and leaves `u` untouched; the citation
records and the counter do not depend on the text at all. -/
theorem processRev_append (amap : AMap) : ∀ (des : List (Nat × Nat × Str))
    (t u : Str) (cits : List CitationInfo) (ctr : Nat), DSpans t.length des →
    processRev amap des (t ++ u) cits ctr =
      ((processRev amap des t cits ctr).1 ++ u,
        (processRev amap des t cits ctr).2) := by
  intro des
  induction des with
  | nil => intro t u cits ctr _; simp [processRev]
  | cons m rest ih =>
    intro t u cits ctr hd
    obtain ⟨s, e, g⟩ := m
    simp only [DSpans] at hd
    obtain ⟨hse, het, hrest⟩ := hd
    have hsle : s ≤ t.length := le_trans (le_of_lt hse) het
    simp only [processRev]
    rw [List.take_append_of_le_length hsle, List.drop_append_of_le_length het]
    have hassoc :
        t.take s ++ spliceRepl amap s e ctr g cits ++ (t.drop e ++ u) =
          (t.take s ++ spliceRepl amap s e ctr g cits ++ t.drop e) ++ u :=
      (List.append_assoc _ _ _).symm
    rw [hassoc]
    apply ih
    refine DSpans_mono rest s _ hrest ?_
    simp only [List.length_append, List.length_take, List.length_drop]
    omega

/-- The processed text decomposes over the descending match spans: each span
is replaced by some string, the rest of the text is copied. -/
theorem processRev_assembleDesc (amap : AMap) : ∀ (des : List (Nat × Nat × Str))
    (t : Str) (cits : List CitationInfo) (ctr : Nat), DSpans t.length des →
    ∃ rs : List Str, rs.length = des.length ∧
      (processRev amap des t cits ctr).1 = assembleDesc t des rs := by
  intro des
  induction des with
  | nil => intro t cits ctr _; exact ⟨[], rfl, rfl⟩
  | cons m rest ih =>
    intro t cits ctr hd
    obtain ⟨s, e, g⟩ := m
    simp only [DSpans] at hd
    obtain ⟨hse, het, hrest⟩ := hd
    have hsle : s ≤ t.length := le_trans (le_of_lt hse) het
    have hlen : (t.take s).length = s := by rw [List.length_take]; omega
    obtain ⟨rs', hrs1, hrs2⟩ :=
      ih (t.take s) (cits ++ (matchCitations amap s e ctr g).1)
        (matchCitations amap s e ctr g).2 (by rw [hlen]; exact hrest)
    refine ⟨spliceRepl amap s e ctr g cits :: rs', by simp [hrs1], ?_⟩
    simp only [processRev]
    have happ := processRev_append amap rest (t.take s)
      (spliceRepl amap s e ctr g cits ++ t.drop e)
      (cits ++ (matchCitations amap s e ctr g).1)
      (matchCitations amap s e ctr g).2 (by rw [hlen]; exact hrest)
    rw [show t.take s ++ spliceRepl amap s e ctr g cits ++ t.drop e =
        t.take s ++ (spliceRepl amap s e ctr g cits ++ t.drop e) from
      List.append_assoc _ _ _]
    rw [happ]
    simp only [assembleDesc]
    rw [hrs2]
    simp [List.append_assoc]

/-- Appending one extra rightmost span to an ascending assembly. -/
theorem assembleAsc_append_last : ∀ (ms : List (Nat × Nat × Str))
    (rs : List Str) (t : Str) (pos s e : Nat) (g r : Str),
    rs.length = ms.length → Spans pos s ms → pos ≤ s → s ≤ t.length →
    assembleAsc t pos (ms ++ [(s, e, g)]) (rs ++ [r]) =
      assembleAsc (t.take s) pos ms rs ++ r ++ t.drop e := by
  intro ms
  induction ms with
  | nil =>
    intro rs t pos s e g r hlen _ hps hst
    have hrs : rs = [] := List.eq_nil_of_length_eq_zero (by simpa using hlen)
    subst hrs
    simp [assembleAsc, List.drop_take]
  | cons m ms' ih =>
    intro rs t pos s e g r hlen hsp hps hst
    obtain ⟨s1, e1, g1⟩ := m
    cases rs with
    | nil => simp at hlen
    | cons r1 rs' =>
      simp only [List.length_cons] at hlen
      simp only [Spans] at hsp
      obtain ⟨hps1, hs1e1, he1s, hrest⟩ := hsp
      simp only [List.cons_append, assembleAsc, List.append_eq]
      rw [ih rs' t e1 s e g r (by omega) hrest he1s hst]
      have hseg : ((t.take s).drop pos).take (s1 - pos) =
          (t.drop pos).take (s1 - pos) := by
        rw [List.drop_take, List.take_take]
        congr 1
        omega
      rw [hseg]
      simp [List.append_assoc]

/-- A descending assembly equals the ascending assembly of the reversed
spans. -/
theorem assembleDesc_eq_asc : ∀ (des : List (Nat × Nat × Str)) (rs : List Str)
    (t : Str), rs.length = des.length → DSpans t.length des →
    assembleDesc t des rs = assembleAsc t 0 des.reverse rs.reverse := by
  intro des
  induction des with
  | nil =>
    intro rs t hlen _
    have hrs : rs = [] := List.eq_nil_of_length_eq_zero (by simpa using hlen)
    subst hrs
    simp [assembleDesc, assembleAsc]
  | cons m rest ih =>
    intro rs t hlen hd
    obtain ⟨s, e, g⟩ := m
    cases rs with
    | nil => simp at hlen
    | cons r rs' =>
      simp only [List.length_cons] at hlen
      simp only [DSpans] at hd
      obtain ⟨hse, het, hrest⟩ := hd
      have hlen2 : (t.take s).length = s := by rw [List.length_take]; omega
      simp only [assembleDesc, List.reverse_cons]
      rw [ih rs' (t.take s) (by omega) (by rw [hlen2]; exact hrest)]
      have hspans : Spans 0 s rest.reverse := by
        have := DSpans_rev_spans rest s s [] hrest trivial (le_refl s)
        simpa using this
      rw [assembleAsc_append_last rest.reverse rs'.reverse t 0 s e g r
        (by simp; omega) hspans (Nat.zero_le s) (by omega)]

/-- Claim C4: the rewritten text of `process_response_citations` is the
original text with exactly the matched marker spans replaced — every
character outside the `N` matched spans is copied verbatim
(`assembleAsc` interleaves the original inter-span segments with the `N`
replacement strings). -/
theorem claim_C4 (response_text : Str) (source_articles : List Article) :
    ∃ rs : List Str, rs.length = (findMatches response_text).length ∧
      (process_response_citations response_text source_articles).1 =
        assembleAsc response_text 0 (findMatches response_text) rs := by
  have hsp : Spans 0 response_text.length (findMatches response_text) := by
    have := findMatchesAux_spans response_text.length response_text 0 (le_refl _)
    simpa only [findMatches, Nat.zero_add] using this
  have hds : DSpans response_text.length (findMatches response_text).reverse := by
    have := Spans_rev_dspans (findMatches response_text) 0 response_text.length
      [] hsp trivial (Nat.zero_le _)
    simpa using this
  obtain ⟨rs, hlen, heq⟩ := processRev_assembleDesc
    (create_article_map source_articles) (findMatches response_text).reverse
    response_text [] 0 hds
  refine ⟨rs.reverse, by simpa using hlen, ?_⟩
  have hbr := assembleDesc_eq_asc (findMatches response_text).reverse rs
    response_text (by simpa using hlen) hds
  calc (process_response_citations response_text source_articles).1
      = (processRev (create_article_map source_articles)
          (findMatches response_text).reverse response_text [] 0).1 := rfl
    _ = assembleDesc response_text (findMatches response_text).reverse rs := heq
    _ = assembleAsc response_text 0 (findMatches response_text).reverse.reverse
          rs.reverse := hbr
    _ = assembleAsc response_text 0 (findMatches response_text) rs.reverse := by
          rw [List.reverse_reverse]

/-- A constant list is descending. -/
theorem chain_ge_of_all_eq : ∀ (l : List Nat) (s : Nat), (∀ x ∈ l, x = s) →
    List.Chain' (· ≥ ·) l := by
  intro l s h
  induction l with
  | nil => simp
  | cons x rest ih =>
    cases rest with
    | nil => simp
    | cons y rest' =>
      rw [List.chain'_cons]
      refine ⟨?_, ih ?_⟩
      · rw [h x (List.mem_cons_self _ _),
          h y (List.mem_cons_of_mem _ (List.mem_cons_self _ _))]
      · intro z hz
        exact h z (List.mem_cons_of_mem _ hz)

/-- Processing matches in descending span order appends citations whose
start offsets never increase: the accumulated citation list stays sorted by
position descending. -/
theorem processRev_sorted (amap : AMap) : ∀ (des : List (Nat × Nat × Str))
    (hi : Nat) (t : Str) (cits : List CitationInfo) (ctr : Nat),
    DSpans hi des →
    (∀ c ∈ cits, ∀ m ∈ des, m.1 ≤ c.pos_start) →
    List.Chain' (· ≥ ·) (cits.map (fun c => c.pos_start)) →
    List.Chain' (· ≥ ·)
      (((processRev amap des t cits ctr).2.1).map (fun c => c.pos_start)) := by
  intro des
  induction des with
  | nil => intro hi t cits ctr _ _ hs; simpa [processRev] using hs
  | cons m rest ih =>
    intro hi t cits ctr hd hcomp hs
    obtain ⟨s, e, g⟩ := m
    simp only [DSpans] at hd
    obtain ⟨hse, het, hrest⟩ := hd
    simp only [processRev]
    apply ih s _ _ _ hrest
    · intro c hc m' hm'
      rcases List.mem_append.mp hc with hcl | hcr
      · exact hcomp c hcl m' (List.mem_cons_of_mem _ hm')
      · have hcs : c.pos_start = s :=
          citationsForMatch_start amap _ s e ctr c hcr
        obtain ⟨h1, h2⟩ := DSpans_bounds rest s hrest m' hm'
        rw [hcs]
        exact le_trans (le_of_lt h1) h2
    · rw [List.map_append, List.chain'_append]
      refine ⟨hs, ?_, ?_⟩
      · apply chain_ge_of_all_eq _ s
        intro x hx
        obtain ⟨c, hc, hcx⟩ := List.mem_map.mp hx
        rw [← hcx]
        exact citationsForMatch_start amap _ s e ctr c hc
      · intro x hx y hy
        obtain ⟨c, hc, hcx⟩ := List.mem_map.mp (List.mem_of_mem_getLast? hx)
        obtain ⟨d, hd2, hdy⟩ := List.mem_map.mp (List.mem_of_mem_head? hy)
        rw [← hcx, ← hdy]
        have hcl := hcomp c hc (s, e, g) (List.mem_cons_self _ _)
        have hds : d.pos_start = s :=
          citationsForMatch_start amap _ s e ctr d hd2
        rw [hds]
        exact hcl

/-- Counterexample to claim C3 as stated: for a response with markers at
positions 2 and 17 (both resolving against a source titled "T"), the
returned citation list carries start offsets `[17, 2]` — descending, not
ascending, order of appearance. -/
theorem claim_C3_cx :
    ((process_response_citations exTwoMarkers [exArticleT]).2.map
      (fun c => c.pos_start)) = [17, 2] ∧
    ¬ List.Chain' (· ≤ ·)
      ((process_response_citations exTwoMarkers [exArticleT]).2.map
        (fun c => c.pos_start)) := by
  have h1 : ((process_response_citations exTwoMarkers [exArticleT]).2.map
      (fun c => c.pos_start)) = [17, 2] := by decide
  refine ⟨h1, ?_⟩
  rw [h1]
  intro hchain
  have := (List.chain'_cons.mp hchain).1
  omega

/-- Claim C3, amended: the citation list returned by
`process_response_citations` is ordered by marker position descending (the
reverse of the markers' order in the original text), because matches are
processed in reverse position order and records are appended as processed. -/
theorem claim_C3 (response_text : Str) (source_articles : List Article) :
    List.Chain' (· ≥ ·)
      ((process_response_citations response_text source_articles).2.map
        (fun c => c.pos_start)) := by
  have hsp : Spans 0 response_text.length (findMatches response_text) := by
    have := findMatchesAux_spans response_text.length response_text 0 (le_refl _)
    simpa only [findMatches, Nat.zero_add] using this
  have hds : DSpans response_text.length (findMatches response_text).reverse := by
    have := Spans_rev_dspans (findMatches response_text) 0 response_text.length
      [] hsp trivial (Nat.zero_le _)
    simpa using this
  have hmain := processRev_sorted (create_article_map source_articles)
    (findMatches response_text).reverse response_text.length response_text [] 0
    hds (by intro c hc; simp at hc) (by simp)
  exact hmain

/-- `takeWhile` swallows a run that all satisfies the predicate and stops at
the first failing element. -/
theorem takeWhile_append_stop (p : Char → Bool) : ∀ (g t : Str) (x : Char),
    (∀ c ∈ g, p c = true) → p x = false →
    (g ++ x :: t).takeWhile p = g := by
  intro g
  induction g with
  | nil =>
    intro t x _ hx
    simp [List.takeWhile_cons, hx]
  | cons c g' ih =>
    intro t x hg hx
    simp only [List.cons_append, List.takeWhile_cons,
      hg c (List.mem_cons_self _ _), if_true]
    rw [ih t x (fun d hd => hg d (List.mem_cons_of_mem _ hd)) hx]

/-- Any suffix of the form `[Sources: <group>]...`, with a non-empty group
containing no `]`, matches the citation pattern. -/
theorem matchAtCore_marker (g tail : Str) (_hg : g ≠ [])
    (hgc : ∀ ch ∈ g, ch ≠ ']') :
    ∃ p, matchAtCore ('[' :: ("Sources: ".toList ++ (g ++ (']' :: tail)))) =
      some p := by
  have ht6 : (("Sources: ".toList ++ (g ++ (']' :: tail))).take 6) =
      "Source".toList := rfl
  have hd6 : (("Sources: ".toList ++ (g ++ (']' :: tail))).drop 6) =
      's' :: ':' :: ' ' :: (g ++ ']' :: tail) := rfl
  simp only [matchAtCore]
  rw [if_pos (And.intro (by trivial) ht6), hd6]
  simp only [matchTail]
  have htw : List.takeWhile (fun ch => ch ≠ ']') (' ' :: (g ++ ']' :: tail)) =
      ' ' :: g := by
    rw [List.takeWhile_cons]
    rw [if_pos (by decide)]
    rw [takeWhile_append_stop _ g tail ']'
      (fun c hc => decide_eq_true (hgc c hc)) (by decide)]
  rw [htw]
  rw [if_pos ?cond]
  case cond =>
    constructor
    · simp
    · simp only [List.length_cons, List.length_append]
      omega
  exact ⟨_, rfl⟩

/-- The interactive replacement decomposes as a prefix followed by a
visible `[Sources: <group>]</span>` marker text. -/
theorem interactiveCitation_decomp (grp : Str) (ids : List Str) :
    interactiveCitation grp ids =
      ("<span class=\"citation-link\" data-citation-ids=\"".toList ++
        joinComma ids ++ "\" data-original=\"".toList ++ grp ++
        "\">".toList) ++
      ('[' :: ("Sources: ".toList ++ (grp ++ (']' :: "</span>".toList)))) := by
  simp only [interactiveCitation]
  have h1 : "[Sources: ".toList = '[' :: "Sources: ".toList := rfl
  have h2 : "]</span>".toList = ']' :: "</span>".toList := rfl
  rw [h1, h2]
  simp [List.append_assoc]

/-- A text containing a well-formed `[Sources: ...]` span still matches the
citation pattern, wherever it sits. -/
theorem findMatches_contains_marker (X pre Q g : Str) (hgne : g ≠ [])
    (hgch : ∀ ch ∈ g, ch ≠ ']') :
    findMatches (X ++ ((pre ++
      ('[' :: ("Sources: ".toList ++ (g ++ (']' :: "</span>".toList))))) ++ Q))
      ≠ [] := by
  intro hemp
  rw [findMatches] at hemp
  have hnone := findMatchesAux_none _ _ 0 (le_refl _) hemp (X ++ pre).length
  have hshape : X ++ ((pre ++
      ('[' :: ("Sources: ".toList ++ (g ++ (']' :: "</span>".toList))))) ++ Q) =
      (X ++ pre) ++
        ('[' :: ("Sources: ".toList ++
          (g ++ (']' :: ("</span>".toList ++ Q))))) := by
    simp [List.append_assoc]
  rw [hshape, List.drop_left] at hnone
  obtain ⟨p, hp⟩ := matchAtCore_marker g ("</span>".toList ++ Q) hgne hgch
  exact Option.noConfusion (hp.symm.trans hnone)

/-- Counterexample to claim C2 as stated: applying
`process_response_citations` to its own output changes the text again — the
replacement span itself contains `[Sources: T]`, which the citation pattern
matches on the second pass. -/
theorem claim_C2_cx :
    (process_response_citations
      (process_response_citations exOneMarker []).1 []).1 ≠
    (process_response_citations exOneMarker []).1 := by
  decide

/-- Claim C2, amended: citation processing is a no-op exactly on texts with
no citation-pattern match (no markers: text returned unchanged, no
citations); when the text does contain a marker, the processed text again
contains a matching `[Sources: ...]` span, so a second pass finds matches
and is not a no-op — processing is not idempotent on marker-carrying
texts. -/
theorem claim_C2 (response_text : Str) (source_articles : List Article) :
    (findMatches response_text = [] →
      process_response_citations response_text source_articles =
        (response_text, [])) ∧
    (findMatches response_text ≠ [] →
      findMatches
        (process_response_citations response_text source_articles).1 ≠ []) := by
  constructor
  · intro h
    simp [process_response_citations, h, processRev]
  · intro h
    have hsp : Spans 0 response_text.length (findMatches response_text) := by
      have := findMatchesAux_spans response_text.length response_text 0 (le_refl _)
      simpa only [findMatches, Nat.zero_add] using this
    have hds : DSpans response_text.length (findMatches response_text).reverse := by
      have := Spans_rev_dspans (findMatches response_text) 0 response_text.length
        [] hsp trivial (Nat.zero_le _)
      simpa using this
    cases hdes : (findMatches response_text).reverse with
    | nil => exact absurd (List.reverse_eq_nil_iff.mp hdes) h
    | cons m des' =>
      obtain ⟨s, e, g⟩ := m
      rw [hdes] at hds
      simp only [DSpans] at hds
      obtain ⟨hse, het, hrest⟩ := hds
      have hgm2 : (s, e, g) ∈ findMatches response_text :=
        List.mem_reverse.mp (hdes ▸ List.mem_cons_self _ _)
      obtain ⟨hgne, hgch⟩ := findMatchesAux_group _ _ 0 (s, e, g) hgm2
      have hlen : (response_text.take s).length = s := by
        rw [List.length_take]; omega
      have hstep : (process_response_citations response_text source_articles).1 =
          (processRev (create_article_map source_articles) des'
            (response_text.take s)
            ([] ++ (matchCitations (create_article_map source_articles) s e 0 g).1)
            (matchCitations (create_article_map source_articles) s e 0 g).2).1 ++
          (spliceRepl (create_article_map source_articles) s e 0 g [] ++
            response_text.drop e) := by
        have h0 : (process_response_citations response_text source_articles).1 =
            (processRev (create_article_map source_articles)
              (findMatches response_text).reverse response_text [] 0).1 := rfl
        rw [h0, hdes]
        simp only [processRev]
        rw [show response_text.take s ++
            spliceRepl (create_article_map source_articles) s e 0 g [] ++
            response_text.drop e =
            response_text.take s ++
            (spliceRepl (create_article_map source_articles) s e 0 g [] ++
              response_text.drop e) from List.append_assoc _ _ _]
        rw [processRev_append _ des' (response_text.take s) _ _ _
          (by rw [hlen]; exact hrest)]
      rw [hstep]
      simp only [spliceRepl]
      rw [interactiveCitation_decomp]
      exact findMatches_contains_marker _ _ _ g hgne hgch

/-- Witness for C2 at concrete inputs: a marker-free text is returned
unchanged with no citations, and a marker-carrying text still contains a
match after processing. -/
theorem claim_C2_witness :
    process_response_citations "No markers here.".toList [] =
      ("No markers here.".toList, []) ∧
    findMatches (process_response_citations exOneMarker []).1 ≠ [] := by
  refine ⟨(claim_C2 "No markers here.".toList []).1 (by decide),
    (claim_C2 exOneMarker []).2 (by decide)⟩

/-! ### Lemmas about citation-name resolution (claim C10) -/

/-- The empty string is a substring of every string (Python `"" in s`). -/
theorem isSubstr_nil : ∀ (hay : Str), isSubstr [] hay = true := by
  intro hay
  induction hay with
  | nil => rfl
  | cons c hs ih => simp [isSubstr, listStarts, ih]

/-- Inserting a key makes it present. -/
theorem insertKey_haskey (m : AMap) (k : Str) (v : Article) :
    ∃ p ∈ insertKey m k v, p.1 = k := by
  unfold insertKey
  by_cases h : m.any (fun p => p.1 == k)
  · rw [if_pos h]
    obtain ⟨p, hp, hpk⟩ := List.any_eq_true.mp h
    have hmem : (if (p.1 == k) = true then (p.1, v) else p) ∈
        List.map (fun q : Str × Article => if q.1 == k then (q.1, v) else q) m :=
      List.mem_map_of_mem _ hp
    rw [if_pos hpk] at hmem
    exact ⟨(p.1, v), hmem, eq_of_beq hpk⟩
  · rw [if_neg h]
    exact ⟨(k, v), List.mem_append_right _ (List.mem_singleton_self _), rfl⟩

/-- Insertion never removes a present key. -/
theorem insertKey_preserve (m : AMap) (k k' : Str) (v : Article)
    (h : ∃ p ∈ m, p.1 = k') : ∃ p ∈ insertKey m k v, p.1 = k' := by
  obtain ⟨p, hp, hpk⟩ := h
  unfold insertKey
  by_cases hany : m.any (fun p => p.1 == k)
  · rw [if_pos hany]
    have hmem : (if (p.1 == k) = true then (p.1, v) else p) ∈
        List.map (fun q : Str × Article => if q.1 == k then (q.1, v) else q) m :=
      List.mem_map_of_mem _ hp
    by_cases hqk : (p.1 == k) = true
    · rw [if_pos hqk] at hmem
      exact ⟨(p.1, v), hmem, hpk⟩
    · rw [if_neg hqk] at hmem
      exact ⟨p, hmem, hpk⟩
  · rw [if_neg hany]
    exact ⟨p, List.mem_append_left _ hp, hpk⟩

/-- An article's (possibly empty) title is a key of the map after its
insertion step. -/
theorem articleMapStep_haskey (m : AMap) (a : Article) :
    ∃ p ∈ articleMapStep m a, p.1 = a.title.getD [] := by
  unfold articleMapStep
  by_cases h : 30 < (a.title.getD []).length
  · rw [if_pos h]
    exact insertKey_preserve _ _ _ _
      (insertKey_preserve _ _ _ _ (insertKey_haskey _ _ _))
  · rw [if_neg h]
    exact insertKey_preserve _ _ _ _ (insertKey_haskey _ _ _)

/-- Folding the article-map construction preserves present keys. -/
theorem foldl_step_preserve : ∀ (articles : List Article) (m : AMap) (k : Str),
    (∃ p ∈ m, p.1 = k) →
    ∃ p ∈ articles.foldl articleMapStep m, p.1 = k := by
  intro articles
  induction articles with
  | nil => intro m k h; exact h
  | cons a rest ih =>
    intro m k h
    simp only [List.foldl_cons]
    apply ih
    unfold articleMapStep
    by_cases hcond : 30 < (a.title.getD []).length
    · rw [if_pos hcond]
      exact insertKey_preserve _ _ _ _
        (insertKey_preserve _ _ _ _ (insertKey_preserve _ _ _ _ h))
    · rw [if_neg hcond]
      exact insertKey_preserve _ _ _ _ (insertKey_preserve _ _ _ _ h)

/-- For every article of the input, its title is a key of the built map. -/
theorem foldl_haskey_of_mem : ∀ (articles : List Article) (a : Article)
    (m : AMap), a ∈ articles →
    ∃ p ∈ articles.foldl articleMapStep m, p.1 = a.title.getD [] := by
  intro articles
  induction articles with
  | nil => intro a m ha; simp at ha
  | cons b rest ih =>
    intro a m ha
    simp only [List.foldl_cons]
    rcases List.mem_cons.mp ha with hab | har
    · subst hab
      exact foldl_step_preserve rest _ _ (articleMapStep_haskey m a)
    · exact ih a (articleMapStep m b) har

/-- When the map carries the empty-string key, every source name resolves:
the substring-containment fallback matches the empty title. -/
theorem find_matching_article_total (m : AMap) (hk : ∃ p ∈ m, p.1 = [])
    (name : Str) : (find_matching_article name m).isSome = true := by
  unfold find_matching_article
  cases h1 : lookupKey m name with
  | some a => simp
  | none =>
    cases h2 : lookupKey m (lowerStr name) with
    | some a => simp
    | none =>
      show (Option.map (fun x : Str × Article => x.2)
        (List.find? (fun p => isSubstr (lowerStr name) (lowerStr p.1) ||
          isSubstr (lowerStr p.1) (lowerStr name)) m)).isSome = true
      rw [Option.isSome_map']
      rw [List.find?_isSome]
      obtain ⟨p, hp, hpk⟩ := hk
      refine ⟨p, hp, ?_⟩
      rw [hpk]
      simp [lowerStr, isSubstr_nil]

/-- When every name resolves, the processor creates one citation record per
parsed name of every processed marker. -/
theorem processRev_count (amap : AMap)
    (hres : ∀ name, (find_matching_article name amap).isSome = true) :
    ∀ (des : List (Nat × Nat × Str)) (t : Str) (cits : List CitationInfo)
    (ctr : Nat),
    ((processRev amap des t cits ctr).2.1).length =
      cits.length + (des.map (fun m => (splitComma m.2.2).length)).sum := by
  intro des
  induction des with
  | nil => intro t cits ctr; simp [processRev]
  | cons m rest ih =>
    intro t cits ctr
    obtain ⟨s, e, g⟩ := m
    simp only [processRev]
    rw [ih]
    simp only [List.length_append, List.map_cons, List.sum_cons]
    have hcnt : (matchCitations amap s e ctr g).1.length =
        (splitComma g).length := by
      simp only [matchCitations]
      rw [citationsForMatch_count amap (fun name => hres name)]
      exact List.length_map _ _
    rw [hcnt]
    omega

/-- Claim C10: if any source article has a missing or empty title, the
empty-string key is in the article map and the substring-containment
fallback makes every citation source name resolve — no parsed name is
dropped, and the processor returns exactly one citation record per parsed
name of every marker. -/
theorem claim_C10 (response_text : Str) (source_articles : List Article)
    (h : ∃ a ∈ source_articles, a.title.getD [] = []) :
    (∀ name, (find_matching_article name
      (create_article_map source_articles)).isSome = true) ∧
    (process_response_citations response_text source_articles).2.length =
      ((findMatches response_text).map
        (fun m => (splitComma m.2.2).length)).sum := by
  obtain ⟨a, ha, hat⟩ := h
  have hkey : ∃ p ∈ create_article_map source_articles, p.1 = [] := by
    have hthis := foldl_haskey_of_mem source_articles a [] ha
    rw [hat] at hthis
    exact hthis
  have hres := fun name => find_matching_article_total _ hkey name
  refine ⟨hres, ?_⟩
  have hc := processRev_count (create_article_map source_articles) hres
    (findMatches response_text).reverse response_text [] 0
  calc (process_response_citations response_text source_articles).2.length
      = ((processRev (create_article_map source_articles)
          (findMatches response_text).reverse response_text [] 0).2.1).length :=
        rfl
    _ = ([] : List CitationInfo).length +
          (((findMatches response_text).reverse).map
            (fun m => (splitComma m.2.2).length)).sum := hc
    _ = ((findMatches response_text).map
          (fun m => (splitComma m.2.2).length)).sum := by
        rw [List.map_reverse, List.sum_reverse]
        simp

/-- Witness for C10: with one title-less source article, a two-name marker
plus surrounding text yields exactly one citation per parsed name. -/
theorem claim_C10_witness :
    (process_response_citations "Hi [Sources: Any, Thing]. Bye.".toList
      [exArticleNoTitle]).2.length =
      ((findMatches "Hi [Sources: Any, Thing]. Bye.".toList).map
        (fun m => (splitComma m.2.2).length)).sum :=
  (claim_C10 "Hi [Sources: Any, Thing]. Bye.".toList [exArticleNoTitle]
    ⟨exArticleNoTitle, List.mem_singleton_self _, rfl⟩).2

/-- Witness for C6 at a concrete input: the bound holds and the concrete
extracted entity "Tesla" is a case-insensitive substring match of the text. -/
theorem claim_C6_witness :
    (extract_entities "Tesla and Google".toList).length ≤ 5 ∧
    isSubstr (lowerStr "Tesla".toList) (lowerStr "Tesla and Google".toList) =
      true :=
  ⟨(claim_C6 "Tesla and Google".toList).1,
    (claim_C6 "Tesla and Google".toList).2.2 "Tesla".toList (by decide)⟩
